import Mathlib

/-!
Verification of the Base32 codec and HOTP/TOTP engine of `m_totp.cpp`
(InspIRCd contrib module "m_totp", directory `src/2.0/`).

Modelling conventions (shallow embedding):
* Byte strings (`std::string` used as byte buffers, `std::vector<unsigned char>`)
  become `List Nat`; the `char`→`unsigned char` conversions of the source are
  the explicit `% 256` operations below.
* Encoded text (`std::string` used as text) becomes `String`.
* `unsigned int` arithmetic is `Nat` arithmetic with `% 4294967296` (2^32)
  exactly where the source can overflow; `unsigned long` time arithmetic is
  `Nat` arithmetic (the theorems' hypotheses keep it away from wraparound,
  see the comment at `TOTP.Validate`).
* The HMAC provider (`dynamic_reference<HashProvider>`, which may be absent)
  is an `Option HashProvider` with an abstract `hmac` function and `out_size`.
* InspIRCd's `ConvToStr` on an unsigned integer (host utility, not part of
  this file's source) renders in decimal; it is modelled by `decRepr`.
-/

namespace Base32

/-- The fixed alphabet `Base32::Base32Chars` = "ABCDEFGHIJKLMNOPQRSTUVWXYZ234567". -/
def Base32Chars : List Char := "ABCDEFGHIJKLMNOPQRSTUVWXYZ234567".toList

/-- Indexing `Base32Chars[i]` of the source; the source only ever indexes with `i < 32`. -/
def b32 (n : Nat) : Char := Base32Chars.getD n '?'

/-- Lookup `Base32Chars.find(c)` of the source: index of `c`, or (here) 32 when the
character is not in the alphabet (`std::string::find` returns `npos ≥ 32`;
the source only tests `val >= 32`). -/
def b32val (c : Char) : Nat := Base32Chars.indexOf c

/-- Semantics of `std::vector::resize` / `std::string::resize`: truncate or zero-fill. -/
def resize (l : List Nat) (n : Nat) : List Nat :=
  l.take n ++ List.replicate (n - l.length) 0

/-- The body of `Base32::Encode`'s block loop: for each consecutive 5-byte
block `data[i*5] .. data[i*5+4]` emit 8 alphabet symbols.  The source runs a
counted loop `for i < blocks` over a buffer of length `5*blocks`; processing
the (always 5-byte aligned) buffer five bytes at a time is the same traversal. -/
def encodeBlocks : List Nat → List Char
  | b0 :: b1 :: b2 :: b3 :: b4 :: rest =>
      b32 (b0 >>> 3) ::
      b32 ((b0 &&& 0x07) <<< 2 ||| (b1 >>> 6)) ::
      b32 ((b1 &&& 0x3f) >>> 1) ::
      b32 ((b1 &&& 0x01) <<< 4 ||| (b2 >>> 4)) ::
      b32 ((b2 &&& 0x0f) <<< 1 ||| (b3 >>> 7)) ::
      b32 ((b3 &&& 0x7f) >>> 2) ::
      b32 ((b3 &&& 0x03) <<< 3 ||| (b4 >>> 5)) ::
      b32 (b4 &&& 0x1f) ::
      encodeBlocks rest
  | _ => []

/-- The padding count of `Base32::Encode` (the chained `?:` on `rest`). -/
def padCount (rest : Nat) : Nat :=
  if rest = 1 then 6 else
  if rest = 2 then 3 else
  if rest = 3 then 3 else
  if rest = 4 then 1 else 0

/-- Source function `Base32::Encode(input, len)`.  `len = 0` is the source's default-argument
sentinel meaning "use `input.length()`".  The construction
`std::vector<unsigned char>(input.begin(), input.end())` converts each `char`
to a byte, i.e. reduces it `% 256`. -/
def Encode (input : List Nat) (len0 : Nat) : String :=
  let len := if len0 = 0 then input.length else len0
  let rest := len % 5
  let data := resize (input.map (fun b => b % 256)) len
  let data := if rest ≠ 0 then resize data (len + (5 - rest)) else data
  let body := encodeBlocks data
  let padding := padCount rest
  String.mk (body.take (body.length - padding) ++ List.replicate padding '=')

/-- One iteration of `Base32::Decode`'s scan loop, acting on the state
`(left, buffer, ret)`.  `buffer` is an `unsigned int`, hence the `% 2^32`. -/
def decodeStep (st : Nat × Nat × List Nat) (c : Char) : Nat × Nat × List Nat :=
  let (left, buffer, out) := st
  let val := b32val c
  if 32 ≤ val then st
  else
    let buffer := ((buffer <<< 5) % 4294967296) ||| val
    let left := left + 5
    if 8 ≤ left then (left - 8, buffer, out ++ [(buffer >>> (left - 8)) &&& 0xff])
    else (left, buffer, out)

/-- The state of `Base32::Decode` after the scan loop. -/
def decodeScan (s : String) : Nat × Nat × List Nat :=
  s.toList.foldl decodeStep (0, 0, [])

/-- Source function `Base32::Decode(data)`.  After the scan, if `left ≠ 0` one final byte
`(buffer << 5) >> (left - 3) & 0xff` is emitted.  In the source `left - 3` is
`size_t` arithmetic: for `left < 3` it wraps around to a huge shift count
(undefined behaviour, see the C9 theorems); here `left - 3` is truncated
subtraction.  The final `ret.resize(count)` makes the emitted bytes the result. -/
def Decode (s : String) : List Nat :=
  let (left, buffer, out) := decodeScan s
  if left ≠ 0 then out ++ [(((buffer <<< 5) % 4294967296) >>> (left - 3)) &&& 0xff]
  else out

/-- The number of characters of `cs` that `Base32::Decode` does not skip,
i.e. that are found in the alphabet. -/
def validCount (cs : List Char) : Nat :=
  (cs.filter (fun c => decide (b32val c < 32))).length

/-- Relation `InsertsInvalid l l2`: `l2` is obtained from `l` by inserting characters
that are outside the Base32 alphabet (the relation of claim C6). -/
inductive InsertsInvalid : List Char → List Char → Prop
  | nil : InsertsInvalid [] []
  | keep (c : Char) {l l2 : List Char} :
      InsertsInvalid l l2 → InsertsInvalid (c :: l) (c :: l2)
  | extra (c : Char) {l l2 : List Char} :
      32 ≤ b32val c → InsertsInvalid l l2 → InsertsInvalid l (c :: l2)

end Base32

/-- Decimal digit extraction underlying `decRepr`; the first argument is fuel
(structural recursion; `n` itself is always sufficient fuel since the value
shrinks by a factor of 10 each step). -/
def toDecAux : Nat → Nat → List Char
  | 0, _ => []
  | fuel + 1, n =>
      if n = 0 then [] else toDecAux fuel (n / 10) ++ [Nat.digitChar (n % 10)]

/-- Modelled from the spec: InspIRCd's `ConvToStr` applied to an unsigned
integer (host utility, outside this file's source) "render[s] as a decimal
string": most-significant digit first, `"0"` for zero. -/
def decRepr (n : Nat) : List Char :=
  if n = 0 then ['0'] else toDecAux n n

/-- The injected HMAC provider (`HashProvider`): a named MAC function with a
known output size.  `hmac key msg` returns the digest bytes. -/
structure HashProvider where
  out_size : Nat
  hmac : List Nat → List Nat → List Nat

namespace TOTP

/-- The loop `for (int i = 8; i--; time >>= 8) challenge[i] = time;` of
`TOTP::Generate`, filling an 8-entry `vector<uint8_t>` from the back:
index 7 receives `time % 256` first, then `time` is shifted right by 8, and
so on down to index 0. -/
def counterBytesAux : Nat → Nat → List Nat
  | _, 0 => []
  | t, n + 1 => counterBytesAux (t >>> 8) n ++ [t % 256]

/-- The 8-byte `challenge` buffer of `TOTP::Generate`. -/
def counterBytes (t : Nat) : List Nat := counterBytesAux t 8

/-- Source function `TOTP::Generate(secret, time)`.  With no provider (`!Hash`) it returns the
empty string.  Otherwise: HMAC of the 8-byte counter under the Base32-decoded
secret, then RFC 4226 dynamic truncation.  `truncatedHash` is an
`unsigned int`, hence the `% 2^32`; the `(unsigned char)` casts on the digest
characters are the `% 256`; `hash[out_size - 1] & 0xF` takes the low four bits
of that byte, which `&&& 0xF` renders directly.  The final two lines are
`ConvToStr` (`decRepr`) and `ret.insert(0, 6 - ret.length(), '0')`. -/
def Generate (hp : Option HashProvider) (secret : String) (time : Nat) : String :=
  match hp with
  | none => ""
  | some h =>
      let challenge := counterBytes time
      let key := Base32.Decode secret
      let hash := h.hmac key challenge
      let offset := (hash.getD (h.out_size - 1) 0) &&& 0xF
      let truncatedHash := (List.range 4).foldl
        (fun acc i => ((acc <<< 8) % 4294967296) ||| (hash.getD (offset + i) 0 % 256)) 0
      let truncatedHash := truncatedHash &&& 0x7FFFFFFF
      let truncatedHash := truncatedHash % 1000000
      let ret := decRepr truncatedHash
      String.mk (List.replicate (6 - ret.length) '0' ++ ret)

/-- Source function `TOTP::Validate(secret, code)`.  `now` is `ServerInstance->Time()` and
`window` the configured `Window` member, passed explicitly here.  The source
computes `(now - 30*window)` in `unsigned long`; every theorem below assumes
`30 * window ≤ now` (true of any real clock with the small configured
windows), where that matches truncated subtraction.  The counted loop
`for (; time < time_end; ++time)` is the traversal of
`List.range' start (time_end - start)`. -/
def Validate (hp : Option HashProvider) (secret code : String)
    (window now : Nat) : Bool :=
  let start := (now - 30 * window) / 30
  let time_end := (now + 30 * window) / 30
  (List.range' start (time_end - start)).any fun t => Generate hp secret t == code

end TOTP

/-- Modelled from the spec (RFC 4226 §5.3 dynamic truncation, claim C1):
`offset` is the last digest byte masked with `0x0F`; the four digest bytes
starting at `offset` are read as a big-endian 32-bit unsigned integer; the
most-significant bit is cleared with `& 0x7FFFFFFF`; the value is reduced
modulo 1,000,000. -/
def rfc4226Truncate (digest : List Nat) : Nat :=
  let offset := (digest.getD (digest.length - 1) 0) &&& 0xF
  ((digest.getD offset 0 * 16777216 + digest.getD (offset + 1) 0 * 65536 +
      digest.getD (offset + 2) 0 * 256 + digest.getD (offset + 3) 0)
    &&& 0x7FFFFFFF) % 1000000

/-- Modelled from the spec: rendering of a code value as a decimal string
left-padded with `'0'` to exactly 6 characters. -/
def sixDigitCode (v : Nat) : String :=
  String.mk (List.replicate (6 - (decRepr v).length) '0' ++ decRepr v)

/-- Modelled from the spec (claim C4): "some published RFC4648 tables" map
`length mod 5` to the padding counts 0, 6, 4, 3, 1. -/
def rfc4648PadCount (rest : Nat) : Nat :=
  if rest = 1 then 6 else
  if rest = 2 then 4 else
  if rest = 3 then 3 else
  if rest = 4 then 1 else 0

theorem lor_eq_add_of_dvd {x y k : Nat} (hd : 2 ^ k ∣ x) (hy : y < 2 ^ k) :
    x ||| y = x + y := by
  obtain ⟨m, rfl⟩ := hd
  apply Nat.eq_of_testBit_eq
  intro i
  rw [Nat.testBit_or]
  rcases Nat.lt_or_ge i k with hik | hik
  · have hA : 2 ^ k * m = 2 ^ i * (2 ^ (k - i) * m) := by
      rw [← Nat.mul_assoc, ← pow_add]
      congr 2
      omega
    have heven : 2 ^ (k - i) * m % 2 = 0 := by
      have h2d : 2 ∣ 2 ^ (k - i) * m :=
        Dvd.dvd.mul_right (dvd_pow_self 2 (by omega)) m
      omega
    have h1 : Nat.testBit (2 ^ k * m) i = false := by
      rw [Nat.testBit_to_div_mod, hA, Nat.mul_div_cancel_left _ (Nat.two_pow_pos i)]
      simp [heven]
    have h2 : Nat.testBit (2 ^ k * m + y) i = Nat.testBit y i := by
      rw [Nat.testBit_to_div_mod, Nat.testBit_to_div_mod, hA,
        Nat.mul_add_div (Nat.two_pow_pos i), decide_eq_decide]
      omega
    rw [h1, h2, Bool.false_or]
  · have hy0 : Nat.testBit y i = false :=
      Nat.testBit_lt_two_pow (lt_of_lt_of_le hy (Nat.pow_le_pow_right (by omega) hik))
    have hsplit : 2 ^ i = 2 ^ k * 2 ^ (i - k) := by
      rw [← pow_add]
      congr 1
      omega
    have h2 : Nat.testBit (2 ^ k * m + y) i = Nat.testBit (2 ^ k * m) i := by
      rw [Nat.testBit_to_div_mod, Nat.testBit_to_div_mod, hsplit,
        ← Nat.div_div_eq_div_mul, ← Nat.div_div_eq_div_mul,
        Nat.mul_add_div (Nat.two_pow_pos k), Nat.div_eq_of_lt hy,
        Nat.mul_div_cancel_left _ (Nat.two_pow_pos k)]
      simp
    rw [h2, hy0, Bool.or_false]

theorem shiftLeft_lor_small {v : Nat} (b k : Nat) (hv : v < 2 ^ k) :
    (b <<< k) ||| v = b * 2 ^ k + v := by
  rw [Nat.shiftLeft_eq, lor_eq_add_of_dvd (dvd_mul_left (2 ^ k) b) hv]

theorem step_buffer {v : Nat} (b : Nat) (hv : v < 32) :
    ((b <<< 5) % 4294967296) ||| v = (b * 32 + v) % 4294967296 := by
  rw [Nat.shiftLeft_eq]
  have hd : 2 ^ 5 ∣ b * 2 ^ 5 % 4294967296 := by
    apply (Nat.dvd_mod_iff (by norm_num)).mpr
    exact dvd_mul_left _ _
  rw [lor_eq_add_of_dvd hd (show v < 2 ^ 5 by omega)]
  have h32 : (2:Nat) ^ 5 = 32 := by norm_num
  rw [h32] at hd ⊢
  omega

theorem read_low (X s : Nat) (hs : s + 8 ≤ 32) :
    ((X % 4294967296) >>> s) &&& 0xff = X / 2 ^ s % 256 := by
  have h255 : (0xff : Nat) = 2 ^ 8 - 1 := by norm_num
  have h256 : (256 : Nat) = 2 ^ 8 := by norm_num
  have hM : (4294967296 : Nat) = 2 ^ 32 := by norm_num
  rw [Nat.shiftRight_eq_div_pow, h255, Nat.and_pow_two_sub_one_eq_mod, h256,
    ← Nat.mod_mul_right_div_self, ← Nat.mod_mul_right_div_self, hM,
    ← pow_add, Nat.mod_mod_of_dvd _ (pow_dvd_pow 2 hs)]

theorem mod_step (X v : Nat) :
    (X % 4294967296 * 32 + v) % 4294967296 = (X * 32 + v) % 4294967296 := by
  rw [Nat.add_mod, Nat.mod_mul_mod, ← Nat.add_mod]

theorem and_mask7 (x : Nat) : x &&& 7 = x % 8 := by
  have h : (7 : Nat) = 2 ^ 3 - 1 := by norm_num
  have h8 : (8 : Nat) = 2 ^ 3 := by norm_num
  rw [h, h8, Nat.and_pow_two_sub_one_eq_mod]

theorem and_mask1 (x : Nat) : x &&& 1 = x % 2 :=
  Nat.and_one_is_mod x

theorem and_mask3 (x : Nat) : x &&& 3 = x % 4 := by
  have h : (3 : Nat) = 2 ^ 2 - 1 := by norm_num
  have h4 : (4 : Nat) = 2 ^ 2 := by norm_num
  rw [h, h4, Nat.and_pow_two_sub_one_eq_mod]

theorem and_mask15 (x : Nat) : x &&& 15 = x % 16 := by
  have h : (15 : Nat) = 2 ^ 4 - 1 := by norm_num
  have h16 : (16 : Nat) = 2 ^ 4 := by norm_num
  rw [h, h16, Nat.and_pow_two_sub_one_eq_mod]

theorem and_mask31 (x : Nat) : x &&& 31 = x % 32 := by
  have h : (31 : Nat) = 2 ^ 5 - 1 := by norm_num
  have h32 : (32 : Nat) = 2 ^ 5 := by norm_num
  rw [h, h32, Nat.and_pow_two_sub_one_eq_mod]

theorem and_mask63 (x : Nat) : x &&& 63 = x % 64 := by
  have h : (63 : Nat) = 2 ^ 6 - 1 := by norm_num
  have h64 : (64 : Nat) = 2 ^ 6 := by norm_num
  rw [h, h64, Nat.and_pow_two_sub_one_eq_mod]

theorem and_mask127 (x : Nat) : x &&& 127 = x % 128 := by
  have h : (127 : Nat) = 2 ^ 7 - 1 := by norm_num
  have h128 : (128 : Nat) = 2 ^ 7 := by norm_num
  rw [h, h128, Nat.and_pow_two_sub_one_eq_mod]

theorem and_mask255 (x : Nat) : x &&& 255 = x % 256 := by
  have h : (255 : Nat) = 2 ^ 8 - 1 := by norm_num
  have h256 : (256 : Nat) = 2 ^ 8 := by norm_num
  rw [h, h256, Nat.and_pow_two_sub_one_eq_mod]

theorem and_mask31bit (x : Nat) : x &&& 0x7FFFFFFF = x % 2147483648 := by
  have h : (0x7FFFFFFF : Nat) = 2 ^ 31 - 1 := by norm_num
  have h31 : (2147483648 : Nat) = 2 ^ 31 := by norm_num
  rw [h, h31, Nat.and_pow_two_sub_one_eq_mod]

namespace Base32

theorem b32val_b32 : ∀ n, n < 32 → b32val (b32 n) = n := by decide

/-- One decode-loop iteration on an alphabet character of index `n < 32`. -/
theorem decodeStep_b32 (l B : Nat) (o : List Nat) {n : Nat} (hn : n < 32) :
    decodeStep (l, B, o) (b32 n) =
      if 8 ≤ l + 5 then
        (l + 5 - 8, ((B <<< 5) % 4294967296) ||| n,
          o ++ [((((B <<< 5) % 4294967296) ||| n) >>> (l + 5 - 8)) &&& 0xff])
      else (l + 5, ((B <<< 5) % 4294967296) ||| n, o) := by
  rw [decodeStep, b32val_b32 n hn, if_neg (by omega)]

/-- Arithmetic forms of the eight symbol indices emitted for one 5-byte block. -/
theorem encIdx0 (b0 : Nat) : b0 >>> 3 = b0 / 8 := by
  rw [Nat.shiftRight_eq_div_pow]

theorem encIdx1 (b0 : Nat) {b1 : Nat} (h1 : b1 < 256) :
    (b0 &&& 0x07) <<< 2 ||| (b1 >>> 6) = b0 % 8 * 4 + b1 / 64 := by
  rw [and_mask7, shiftLeft_lor_small _ 2 (by omega), Nat.shiftRight_eq_div_pow]
  norm_num

theorem encIdx2 (b1 : Nat) : (b1 &&& 0x3f) >>> 1 = b1 % 64 / 2 := by
  rw [and_mask63, Nat.shiftRight_eq_div_pow]

theorem encIdx3 (b1 : Nat) {b2 : Nat} (h2 : b2 < 256) :
    (b1 &&& 0x01) <<< 4 ||| (b2 >>> 4) = b1 % 2 * 16 + b2 / 16 := by
  rw [and_mask1, shiftLeft_lor_small _ 4 (by omega), Nat.shiftRight_eq_div_pow]
  norm_num

theorem encIdx4 (b2 : Nat) {b3 : Nat} (h3 : b3 < 256) :
    (b2 &&& 0x0f) <<< 1 ||| (b3 >>> 7) = b2 % 16 * 2 + b3 / 128 := by
  rw [and_mask15, shiftLeft_lor_small _ 1 (by omega), Nat.shiftRight_eq_div_pow]
  norm_num

theorem encIdx5 (b3 : Nat) : (b3 &&& 0x7f) >>> 2 = b3 % 128 / 4 := by
  rw [and_mask127, Nat.shiftRight_eq_div_pow]

theorem encIdx6 (b3 : Nat) {b4 : Nat} (h4 : b4 < 256) :
    (b3 &&& 0x03) <<< 3 ||| (b4 >>> 5) = b3 % 4 * 8 + b4 / 32 := by
  rw [and_mask3, shiftLeft_lor_small _ 3 (by omega), Nat.shiftRight_eq_div_pow]
  norm_num

theorem encIdx7 (b4 : Nat) : b4 &&& 0x1f = b4 % 32 := and_mask31 b4

theorem decode_block (buf : Nat) (out : List Nat) {b0 b1 b2 b3 b4 : Nat}
    (h0 : b0 < 256) (h1 : b1 < 256) (h2 : b2 < 256) (h3 : b3 < 256) (h4 : b4 < 256) :
    ∃ buf2, List.foldl decodeStep (0, buf, out) (encodeBlocks [b0, b1, b2, b3, b4])
      = (0, buf2, out ++ [b0, b1, b2, b3, b4]) := by
  have s1 : decodeStep (0, buf, out) (b32 (b0 / 8))
      = (5, (buf * 32 + b0 / 8) % 4294967296, out) := by
    rw [decodeStep_b32 _ _ _ (by omega), if_neg (by norm_num), step_buffer _ (by omega)]
  have s2 : decodeStep (5, (buf * 32 + b0 / 8) % 4294967296, out)
        (b32 (b0 % 8 * 4 + b1 / 64))
      = (2, ((buf * 32 + b0 / 8) * 32 + (b0 % 8 * 4 + b1 / 64)) % 4294967296,
          out ++ [b0]) := by
    rw [decodeStep_b32 _ _ _ (by omega), if_pos (by norm_num), step_buffer _ (by omega),
      mod_step, read_low _ _ (by norm_num)]
    simp only [Prod.mk.injEq, List.append_assoc, List.append_cancel_left_eq,
      List.cons.injEq, and_true, true_and]
    norm_num
    omega
  have s3 : decodeStep
        (2, ((buf * 32 + b0 / 8) * 32 + (b0 % 8 * 4 + b1 / 64)) % 4294967296,
          out ++ [b0]) (b32 (b1 % 64 / 2))
      = (7, (((buf * 32 + b0 / 8) * 32 + (b0 % 8 * 4 + b1 / 64)) * 32 + b1 % 64 / 2)
            % 4294967296, out ++ [b0]) := by
    rw [decodeStep_b32 _ _ _ (by omega), if_neg (by norm_num), step_buffer _ (by omega),
      mod_step]
  have s4 : decodeStep
        (7, (((buf * 32 + b0 / 8) * 32 + (b0 % 8 * 4 + b1 / 64)) * 32 + b1 % 64 / 2)
          % 4294967296, out ++ [b0]) (b32 (b1 % 2 * 16 + b2 / 16))
      = (4, ((((buf * 32 + b0 / 8) * 32 + (b0 % 8 * 4 + b1 / 64)) * 32 + b1 % 64 / 2)
            * 32 + (b1 % 2 * 16 + b2 / 16)) % 4294967296, out ++ [b0, b1]) := by
    rw [decodeStep_b32 _ _ _ (by omega), if_pos (by norm_num), step_buffer _ (by omega),
      mod_step, read_low _ _ (by norm_num)]
    simp only [Prod.mk.injEq, List.append_assoc, List.append_cancel_left_eq,
      List.cons.injEq, and_true, true_and]
    norm_num
    omega
  have s5 : decodeStep
        (4, ((((buf * 32 + b0 / 8) * 32 + (b0 % 8 * 4 + b1 / 64)) * 32 + b1 % 64 / 2)
          * 32 + (b1 % 2 * 16 + b2 / 16)) % 4294967296, out ++ [b0, b1])
        (b32 (b2 % 16 * 2 + b3 / 128))
      = (1, (((((buf * 32 + b0 / 8) * 32 + (b0 % 8 * 4 + b1 / 64)) * 32 + b1 % 64 / 2)
            * 32 + (b1 % 2 * 16 + b2 / 16)) * 32 + (b2 % 16 * 2 + b3 / 128))
            % 4294967296, out ++ [b0, b1, b2]) := by
    rw [decodeStep_b32 _ _ _ (by omega), if_pos (by norm_num), step_buffer _ (by omega),
      mod_step, read_low _ _ (by norm_num)]
    simp only [Prod.mk.injEq, List.append_assoc, List.append_cancel_left_eq,
      List.cons.injEq, and_true, true_and]
    norm_num
    omega
  have s6 : decodeStep
        (1, (((((buf * 32 + b0 / 8) * 32 + (b0 % 8 * 4 + b1 / 64)) * 32 + b1 % 64 / 2)
          * 32 + (b1 % 2 * 16 + b2 / 16)) * 32 + (b2 % 16 * 2 + b3 / 128))
          % 4294967296, out ++ [b0, b1, b2]) (b32 (b3 % 128 / 4))
      = (6, ((((((buf * 32 + b0 / 8) * 32 + (b0 % 8 * 4 + b1 / 64)) * 32 + b1 % 64 / 2)
            * 32 + (b1 % 2 * 16 + b2 / 16)) * 32 + (b2 % 16 * 2 + b3 / 128)) * 32
            + b3 % 128 / 4) % 4294967296, out ++ [b0, b1, b2]) := by
    rw [decodeStep_b32 _ _ _ (by omega), if_neg (by norm_num), step_buffer _ (by omega),
      mod_step]
  have s7 : decodeStep
        (6, ((((((buf * 32 + b0 / 8) * 32 + (b0 % 8 * 4 + b1 / 64)) * 32 + b1 % 64 / 2)
          * 32 + (b1 % 2 * 16 + b2 / 16)) * 32 + (b2 % 16 * 2 + b3 / 128)) * 32
          + b3 % 128 / 4) % 4294967296, out ++ [b0, b1, b2])
        (b32 (b3 % 4 * 8 + b4 / 32))
      = (3, (((((((buf * 32 + b0 / 8) * 32 + (b0 % 8 * 4 + b1 / 64)) * 32 + b1 % 64 / 2)
            * 32 + (b1 % 2 * 16 + b2 / 16)) * 32 + (b2 % 16 * 2 + b3 / 128)) * 32
            + b3 % 128 / 4) * 32 + (b3 % 4 * 8 + b4 / 32)) % 4294967296,
          out ++ [b0, b1, b2, b3]) := by
    rw [decodeStep_b32 _ _ _ (by omega), if_pos (by norm_num), step_buffer _ (by omega),
      mod_step, read_low _ _ (by norm_num)]
    simp only [Prod.mk.injEq, List.append_assoc, List.append_cancel_left_eq,
      List.cons.injEq, and_true, true_and]
    norm_num
    omega
  have s8 : decodeStep
        (3, (((((((buf * 32 + b0 / 8) * 32 + (b0 % 8 * 4 + b1 / 64)) * 32 + b1 % 64 / 2)
          * 32 + (b1 % 2 * 16 + b2 / 16)) * 32 + (b2 % 16 * 2 + b3 / 128)) * 32
          + b3 % 128 / 4) * 32 + (b3 % 4 * 8 + b4 / 32)) % 4294967296,
          out ++ [b0, b1, b2, b3]) (b32 (b4 % 32))
      = (0, ((((((((buf * 32 + b0 / 8) * 32 + (b0 % 8 * 4 + b1 / 64)) * 32 + b1 % 64 / 2)
            * 32 + (b1 % 2 * 16 + b2 / 16)) * 32 + (b2 % 16 * 2 + b3 / 128)) * 32
            + b3 % 128 / 4) * 32 + (b3 % 4 * 8 + b4 / 32)) * 32 + b4 % 32)
            % 4294967296, out ++ [b0, b1, b2, b3, b4]) := by
    rw [decodeStep_b32 _ _ _ (by omega), if_pos (by norm_num), step_buffer _ (by omega),
      mod_step, read_low _ _ (by norm_num)]
    simp only [Prod.mk.injEq, List.append_assoc, List.append_cancel_left_eq,
      List.cons.injEq, and_true, true_and]
    norm_num
    omega
  have hunfold : encodeBlocks [b0, b1, b2, b3, b4]
      = [b32 (b0 >>> 3), b32 ((b0 &&& 0x07) <<< 2 ||| (b1 >>> 6)),
         b32 ((b1 &&& 0x3f) >>> 1), b32 ((b1 &&& 0x01) <<< 4 ||| (b2 >>> 4)),
         b32 ((b2 &&& 0x0f) <<< 1 ||| (b3 >>> 7)), b32 ((b3 &&& 0x7f) >>> 2),
         b32 ((b3 &&& 0x03) <<< 3 ||| (b4 >>> 5)), b32 (b4 &&& 0x1f)] := rfl
  rw [hunfold, encIdx0 b0, encIdx1 b0 h1, encIdx2 b1, encIdx3 b1 h2, encIdx4 b2 h3,
    encIdx5 b3, encIdx6 b3 h4, encIdx7 b4]
  simp only [List.foldl]
  rw [s1, s2, s3, s4, s5, s6, s7, s8]
  exact ⟨_, rfl⟩

end Base32

namespace Base32

theorem map_mod_eq_self : ∀ (l : List Nat), (∀ b ∈ l, b < 256) →
    l.map (fun b => b % 256) = l := by
  intro l h
  induction l with
  | nil => rfl
  | cons a t iht =>
      simp only [List.map_cons, List.cons.injEq]
      constructor
      · exact Nat.mod_eq_of_lt (h a (by simp))
      · exact iht (fun b hb => h b (by simp [hb]))

theorem resize_length (l : List Nat) (n : Nat) : (resize l n).length = n := by
  simp [resize]
  omega

theorem resize_lt {l : List Nat} (h : ∀ b ∈ l, b < 256) (n : Nat) :
    ∀ b ∈ resize l n, b < 256 := by
  intro b hb
  rcases List.mem_append.mp hb with h1 | h2
  · exact h b (List.mem_of_mem_take h1)
  · rw [List.eq_of_mem_replicate h2]
    norm_num

theorem encodeBlocks_length : ∀ l : List Nat,
    (encodeBlocks l).length = 8 * (l.length / 5) := by
  intro l
  induction l using encodeBlocks.induct with
  | case1 b0 b1 b2 b3 b4 rest ih =>
      rw [encodeBlocks]
      simp only [List.length_cons, ih]
      omega
  | case2 l h =>
      have hnil : encodeBlocks l = [] := by
        match l, h with
        | [], _ => rfl
        | [a], _ => rfl
        | [a, b], _ => rfl
        | [a, b, c], _ => rfl
        | [a, b, c, d], _ => rfl
        | a :: b :: c :: d :: e :: t, h => exact absurd rfl (h a b c d e t)
      have hlt : l.length < 5 := by
        match l, h with
        | [], _ => simp
        | [a], _ => simp
        | [a, b], _ => simp
        | [a, b, c], _ => simp
        | [a, b, c, d], _ => simp
        | a :: b :: c :: d :: e :: t, h => exact absurd rfl (h a b c d e t)
      rw [hnil, List.length_nil]
      omega

theorem b32_mem {n : Nat} (hn : n < 32) : b32 n ∈ Base32Chars := by
  have hlen : Base32Chars.length = 32 := by decide
  rw [b32, List.getD_eq_getElem _ _ (by omega)]
  exact List.getElem_mem _

theorem encodeBlocks_mem : ∀ l : List Nat, (∀ b ∈ l, b < 256) →
    ∀ c ∈ encodeBlocks l, c ∈ Base32Chars := by
  intro l
  induction l using encodeBlocks.induct with
  | case1 b0 b1 b2 b3 b4 rest ih =>
      intro hb c hc
      have h0 : b0 < 256 := hb b0 (by simp)
      have h1 : b1 < 256 := hb b1 (by simp)
      have h2 : b2 < 256 := hb b2 (by simp)
      have h3 : b3 < 256 := hb b3 (by simp)
      have h4 : b4 < 256 := hb b4 (by simp)
      rw [encodeBlocks] at hc
      simp only [List.mem_cons] at hc
      rcases hc with h | h | h | h | h | h | h | h | h
      · subst h
        exact b32_mem (by rw [encIdx0]; omega)
      · subst h
        exact b32_mem (by rw [encIdx1 b0 h1]; omega)
      · subst h
        exact b32_mem (by rw [encIdx2]; omega)
      · subst h
        exact b32_mem (by rw [encIdx3 b1 h2]; omega)
      · subst h
        exact b32_mem (by rw [encIdx4 b2 h3]; omega)
      · subst h
        exact b32_mem (by rw [encIdx5]; omega)
      · subst h
        exact b32_mem (by rw [encIdx6 b3 h4]; omega)
      · subst h
        exact b32_mem (by rw [encIdx7]; omega)
      · exact ih (fun b hbm => hb b (by simp [hbm])) c h
  | case2 l h =>
      intro hb c hc
      have hnil : encodeBlocks l = [] := by
        match l, h with
        | [], _ => rfl
        | [a], _ => rfl
        | [a, b], _ => rfl
        | [a, b, c], _ => rfl
        | [a, b, c, d], _ => rfl
        | a :: b :: c :: d :: e :: t, h => exact absurd rfl (h a b c d e t)
      rw [hnil] at hc
      exact absurd hc (List.not_mem_nil c)

/-- Decoding the symbols produced for an aligned byte buffer recovers the
bytes: the scan loop over `encodeBlocks l` (length of `l` a multiple of 5)
started with an empty bit buffer appends exactly `l` to the output. -/
theorem decode_encodeBlocks : ∀ (n : Nat) (l : List Nat), l.length = n →
    (∀ b ∈ l, b < 256) → l.length % 5 = 0 → ∀ (buf : Nat) (out : List Nat),
    ∃ buf2, List.foldl decodeStep (0, buf, out) (encodeBlocks l)
      = (0, buf2, out ++ l) := by
  intro n
  induction n using Nat.strong_induction_on with
  | _ n ih =>
    intro l hlen hb h5 buf out
    match l, hlen with
    | [], _ =>
        refine ⟨buf, ?_⟩
        simp [encodeBlocks, List.foldl]
    | [a], hlen => simp at h5
    | [a, b], hlen => simp at h5
    | [a, b, c], hlen => simp at h5
    | [a, b, c, d], hlen => simp at h5
    | b0 :: b1 :: b2 :: b3 :: b4 :: rest, hlen =>
        have hsplit : encodeBlocks (b0 :: b1 :: b2 :: b3 :: b4 :: rest)
            = encodeBlocks [b0, b1, b2, b3, b4] ++ encodeBlocks rest := rfl
        rw [hsplit, List.foldl_append]
        obtain ⟨B1, hB1⟩ := decode_block buf out (hb b0 (by simp)) (hb b1 (by simp))
          (hb b2 (by simp)) (hb b3 (by simp)) (hb b4 (by simp))
        rw [hB1]
        have hrl : rest.length < n := by
          simp only [List.length_cons] at hlen
          omega
        have hr5 : rest.length % 5 = 0 := by
          simp only [List.length_cons] at h5
          omega
        obtain ⟨B2, hB2⟩ := ih rest.length hrl rest rfl
          (fun b hbm => hb b (by simp [hbm])) hr5 B1 (out ++ [b0, b1, b2, b3, b4])
        rw [hB2]
        refine ⟨B2, ?_⟩
        simp

/-- For an aligned in-range byte buffer, `Base32::Encode` with the default
length argument is exactly the block encoding: no zero-padding bytes are
added and no padding characters are appended. -/
theorem encode_aligned (l : List Nat) (hb : ∀ b ∈ l, b < 256)
    (h5 : l.length % 5 = 0) : Encode l 0 = String.mk (encodeBlocks l) := by
  have hres : resize l l.length = l := by
    rw [resize, List.take_length]
    simp
  rw [Encode]
  simp [map_mod_eq_self l hb, h5, hres, padCount, List.take_length]

/-- Folding the scan loop over a list with invalid characters inserted gives
the same state as folding it over the original list. -/
theorem foldl_insertsInvalid {l l2 : List Char} (h : InsertsInvalid l l2) :
    ∀ st : Nat × Nat × List Nat, l2.foldl decodeStep st = l.foldl decodeStep st := by
  induction h with
  | nil => intro st; rfl
  | keep c hrec ih =>
      intro st
      simp only [List.foldl]
      exact ih _
  | extra c hc hrec ih =>
      intro st
      simp only [List.foldl]
      have hskip : decodeStep st c = st := by
        obtain ⟨left, buffer, out⟩ := st
        rw [decodeStep]
        simp only [if_pos hc]
      rw [hskip]
      exact ih st

/-- The scan-loop invariant: starting from `left < 8`, after the whole scan
the pending-bit count is `(left + 5·validCount) % 8` and the number of
emitted bytes grows by `(left + 5·validCount) / 8`. -/
theorem scan_spec : ∀ (cs : List Char) (left buf : Nat) (out : List Nat),
    left < 8 →
    (cs.foldl decodeStep (left, buf, out)).1 = (left + 5 * validCount cs) % 8 ∧
    (cs.foldl decodeStep (left, buf, out)).2.2.length
      = out.length + (left + 5 * validCount cs) / 8 := by
  intro cs
  induction cs with
  | nil =>
      intro left buf out h
      simp only [List.foldl, validCount, List.filter_nil, List.length_nil]
      constructor
      · omega
      · omega
  | cons c t iht =>
      intro left buf out h
      by_cases hv : 32 ≤ b32val c
      · have hskip : decodeStep (left, buf, out) c = (left, buf, out) := by
          rw [decodeStep]
          simp only [if_pos hv]
        have hcount : validCount (c :: t) = validCount t := by
          simp only [validCount, List.filter_cons]
          rw [if_neg (by simp; omega)]
        simp only [List.foldl, hskip, hcount]
        exact iht left buf out h
      · push_neg at hv
        have hcount : validCount (c :: t) = validCount t + 1 := by
          simp only [validCount, List.filter_cons]
          rw [if_pos (by simp [hv])]
          simp
        by_cases he : 8 ≤ left + 5
        · have hstep : decodeStep (left, buf, out) c
              = (left + 5 - 8, ((buf <<< 5) % 4294967296) ||| b32val c,
                out ++ [((((buf <<< 5) % 4294967296) ||| b32val c) >>> (left + 5 - 8)) &&& 0xff]) := by
            rw [decodeStep]
            rw [if_neg (show ¬ 32 ≤ b32val c by omega), if_pos he]
          simp only [List.foldl, hstep, hcount]
          obtain ⟨ha, hb⟩ := iht (left + 5 - 8) (((buf <<< 5) % 4294967296) ||| b32val c)
            (out ++ [((((buf <<< 5) % 4294967296) ||| b32val c) >>> (left + 5 - 8)) &&& 0xff])
            (by omega)
          rw [ha, hb]
          simp only [List.length_append, List.length_cons, List.length_nil]
          constructor
          · omega
          · omega
        · have hstep : decodeStep (left, buf, out) c
              = (left + 5, ((buf <<< 5) % 4294967296) ||| b32val c, out) := by
            rw [decodeStep]
            rw [if_neg (show ¬ 32 ≤ b32val c by omega), if_neg he]
          simp only [List.foldl, hstep, hcount]
          obtain ⟨ha, hb⟩ := iht (left + 5) (((buf <<< 5) % 4294967296) ||| b32val c)
            out (by omega)
          rw [ha, hb]
          constructor
          · omega
          · omega

end Base32

theorem toDecAux_length : ∀ (fuel n k : Nat), n < 10 ^ k → n ≤ fuel →
    (toDecAux fuel n).length ≤ k := by
  intro fuel
  induction fuel with
  | zero =>
      intro n k h hf
      have hn : n = 0 := by omega
      subst hn
      simp [toDecAux]
  | succ f ihf =>
      intro n k h hf
      rw [toDecAux]
      by_cases h0 : n = 0
      · simp [h0]
      · rw [if_neg h0]
        simp only [List.length_append, List.length_cons, List.length_nil]
        have hk : 1 ≤ k := by
          rcases Nat.eq_zero_or_pos k with hk0 | hk0
          · subst hk0
            simp at h
            omega
          · omega
        have hd : n / 10 < 10 ^ (k - 1) := by
          have h10 : 10 ^ k = 10 ^ (k - 1) * 10 := by
            conv_lhs => rw [show k = (k - 1) + 1 by omega]
            rw [pow_succ]
          rw [Nat.div_lt_iff_lt_mul (by norm_num)]
          omega
        have := ihf (n / 10) (k - 1) hd (by omega)
        omega

theorem decRepr_length_le {n : Nat} (h : n < 1000000) : (decRepr n).length ≤ 6 := by
  rw [decRepr]
  by_cases h0 : n = 0
  · simp [h0]
  · rw [if_neg h0]
    exact toDecAux_length n n 6 (by norm_num [h]) le_rfl

theorem digitChar_isDigit : ∀ m, m < 10 → (Nat.digitChar m).isDigit = true := by
  decide

theorem toDecAux_digits : ∀ fuel n, ∀ c ∈ toDecAux fuel n, c.isDigit = true := by
  intro fuel
  induction fuel with
  | zero =>
      intro n c hc
      simp [toDecAux] at hc
  | succ f ihf =>
      intro n c hc
      rw [toDecAux] at hc
      by_cases h0 : n = 0
      · rw [if_pos h0] at hc
        simp at hc
      · rw [if_neg h0] at hc
        rcases List.mem_append.mp hc with h1 | h2
        · exact ihf _ c h1
        · rw [List.mem_singleton] at h2
          subst h2
          exact digitChar_isDigit _ (Nat.mod_lt _ (by norm_num))

theorem decRepr_digits (n : Nat) : ∀ c ∈ decRepr n, c.isDigit = true := by
  intro c hc
  rw [decRepr] at hc
  by_cases h0 : n = 0
  · rw [if_pos h0, List.mem_singleton] at hc
    subst hc
    decide
  · rw [if_neg h0] at hc
    exact toDecAux_digits n n c hc

namespace TOTP

theorem counterBytes_eq (t : Nat) :
    counterBytes t = [t / 2 ^ 56 % 256, t / 2 ^ 48 % 256, t / 2 ^ 40 % 256,
      t / 2 ^ 32 % 256, t / 2 ^ 24 % 256, t / 2 ^ 16 % 256, t / 2 ^ 8 % 256,
      t % 256] := by
  simp only [counterBytes, counterBytesAux, Nat.shiftRight_eq_div_pow,
    Nat.div_div_eq_div_mul, List.append_assoc, List.nil_append, List.cons_append]
  norm_num

end TOTP

theorem step_buffer8 {v : Nat} (b : Nat) (hv : v < 256) :
    ((b <<< 8) % 4294967296) ||| v = (b * 256 + v) % 4294967296 := by
  rw [Nat.shiftLeft_eq]
  have hd : 2 ^ 8 ∣ b * 2 ^ 8 % 4294967296 := by
    apply (Nat.dvd_mod_iff (by norm_num)).mpr
    exact dvd_mul_left _ _
  rw [lor_eq_add_of_dvd hd (show v < 2 ^ 8 by omega)]
  have h256 : (2:Nat) ^ 8 = 256 := by norm_num
  rw [h256] at hd ⊢
  omega

theorem mod_step8 (X v : Nat) :
    (X % 4294967296 * 256 + v) % 4294967296 = (X * 256 + v) % 4294967296 := by
  rw [Nat.add_mod, Nat.mod_mul_mod, ← Nat.add_mod]

namespace Base32

theorem padCount_le (r : Nat) : padCount r ≤ 6 := by
  unfold padCount
  split_ifs <;> omega

theorem padCount_zero : padCount 0 = 0 := rfl

/-- Structure of `Base32::Encode`'s output: an alphabet-only body followed by
exactly `padCount (len mod 5)` copies of `'='`, with total length
`8 * ceil(len / 5)`. -/
theorem encode_split (input : List Nat) (len0 : Nat) :
    ∃ body : List Char,
      Encode input len0
        = String.mk (body ++ List.replicate
            (padCount ((if len0 = 0 then input.length else len0) % 5)) '=') ∧
      (∀ c ∈ body, c ∈ Base32Chars) ∧
      body.length + padCount ((if len0 = 0 then input.length else len0) % 5)
        = 8 * (((if len0 = 0 then input.length else len0) + 4) / 5) := by
  rw [Encode]
  set L := if len0 = 0 then input.length else len0 with hL
  set rest := L % 5 with hrest
  set data0 := resize (input.map (fun b => b % 256)) L with hdata0
  set data := if rest ≠ 0 then resize data0 (L + (5 - rest)) else data0 with hdata
  have hd_lt : ∀ b ∈ data, b < 256 := by
    have hm : ∀ b ∈ input.map (fun b => b % 256), b < 256 := by
      intro b hb
      obtain ⟨a, _, ha⟩ := List.mem_map.mp hb
      omega
    rw [hdata]
    split_ifs
    · exact resize_lt (resize_lt hm L) _
    · exact resize_lt hm L
  have hd_len : data.length = 5 * ((L + 4) / 5) := by
    rw [hdata]
    split_ifs with hr
    · rw [resize_length]
      omega
    · rw [hdata0, resize_length]
      omega
  have hbody_len : (encodeBlocks data).length = 8 * ((L + 4) / 5) := by
    rw [encodeBlocks_length, hd_len]
    omega
  have hp6 : padCount rest ≤ 6 := padCount_le rest
  have hple : padCount rest ≤ (encodeBlocks data).length := by
    rcases Nat.eq_zero_or_pos (padCount rest) with h0 | h0
    · omega
    · have hr0 : rest ≠ 0 := by
        intro hz
        rw [hz, padCount_zero] at h0
        omega
      have : 1 ≤ (L + 4) / 5 := by
        have : L % 5 ≠ 0 := hr0
        omega
      omega
  refine ⟨(encodeBlocks data).take ((encodeBlocks data).length - padCount rest),
    rfl, ?_, ?_⟩
  · intro c hc
    exact encodeBlocks_mem data hd_lt c (List.mem_of_mem_take hc)
  · rw [List.length_take]
    omega

end Base32

/-- C7: for every input byte sequence and length argument, the string produced
by `Base32::Encode` has length `8 * ceil(len / 5)` characters — in particular
a multiple of 8 — and uses only the alphabet A–Z2–7 plus `'='` padding
(`len` being the explicit length argument, or the input length when the
default sentinel 0 is passed). -/
theorem encode_length_and_alphabet_c7 (input : List Nat) (len0 : Nat) :
    (Base32.Encode input len0).length
      = 8 * (((if len0 = 0 then input.length else len0) + 4) / 5) ∧
    ∀ c ∈ (Base32.Encode input len0).toList,
      c ∈ Base32.Base32Chars ∨ c = '=' := by
  obtain ⟨body, heq, hmem, hlen⟩ := Base32.encode_split input len0
  constructor
  · rw [heq]
    show (body ++ List.replicate _ '=').length = _
    rw [List.length_append, List.length_replicate]
    omega
  · intro c hc
    rw [heq] at hc
    have : c ∈ body ++ List.replicate
        (Base32.padCount ((if len0 = 0 then input.length else len0) % 5)) '=' := hc
    rcases List.mem_append.mp this with h1 | h2
    · exact Or.inl (hmem c h1)
    · exact Or.inr (List.eq_of_mem_replicate h2)

/-- C4: `Base32::Encode` replaces a fixed number of trailing symbols with the
same number of `'='` characters, the number depending only on `len mod 5`
through the table 0 → 0, 1 → 6, 2 → 3, 3 → 3, 4 → 1, which deviates from the
RFC 4648 table (0, 6, 4, 3, 1) exactly at remainder 2. -/
theorem encode_padding_table_c4 (input : List Nat) (len0 : Nat) :
    (∃ body : List Char,
      Base32.Encode input len0
        = String.mk (body ++ List.replicate
            (Base32.padCount ((if len0 = 0 then input.length else len0) % 5)) '=') ∧
      (∀ c ∈ body, c ≠ '=') ∧
      body.length + Base32.padCount ((if len0 = 0 then input.length else len0) % 5)
        = 8 * (((if len0 = 0 then input.length else len0) + 4) / 5)) ∧
    Base32.padCount 0 = 0 ∧ Base32.padCount 1 = 6 ∧ Base32.padCount 2 = 3 ∧
    Base32.padCount 3 = 3 ∧ Base32.padCount 4 = 1 ∧
    Base32.padCount 2 ≠ rfc4648PadCount 2 ∧
    ∀ r, r ≠ 2 → Base32.padCount r = rfc4648PadCount r := by
  refine ⟨?_, rfl, rfl, rfl, rfl, rfl, by decide, ?_⟩
  · obtain ⟨body, heq, hmem, hlen⟩ := Base32.encode_split input len0
    refine ⟨body, heq, ?_, hlen⟩
    intro c hc hceq
    have : c ∈ Base32.Base32Chars := hmem c hc
    rw [hceq] at this
    exact absurd this (by decide)
  · intro r hr
    unfold Base32.padCount rfc4648PadCount
    split_ifs <;> omega

/-- C3: encoding a byte sequence whose length is a multiple of 5 and decoding
the result returns the original bytes exactly. -/
theorem encode_decode_roundtrip_c3 (l : List Nat) (hb : ∀ b ∈ l, b < 256)
    (h5 : l.length % 5 = 0) : Base32.Decode (Base32.Encode l 0) = l := by
  rw [Base32.encode_aligned l hb h5]
  obtain ⟨B, hB⟩ := Base32.decode_encodeBlocks l.length l rfl hb h5 0 []
  rw [Base32.Decode]
  have htl : (String.mk (Base32.encodeBlocks l)).toList = Base32.encodeBlocks l := rfl
  rw [Base32.decodeScan, htl, hB]
  simp

/-- Witness for C3 at a concrete aligned input. -/
theorem encode_decode_roundtrip_c3_witness :
    Base32.Decode (Base32.Encode [72, 101, 108, 108, 111] 0)
      = [72, 101, 108, 108, 111] :=
  encode_decode_roundtrip_c3 [72, 101, 108, 108, 111] (by decide) (by decide)

/-- C6: `Base32::Decode` silently skips every character outside the alphabet,
so inserting invalid characters anywhere in a string leaves the decoded byte
sequence unchanged; in particular `"JBSWY3DP"` and `"JB-SWY3!DP"` decode to
the identical byte sequence.  (The model `Base32.Decode` is a total function:
no input raises an error.) -/
theorem decode_lenient_c6 :
    (∀ s s2 : String, Base32.InsertsInvalid s.toList s2.toList →
      Base32.Decode s2 = Base32.Decode s) ∧
    Base32.Decode "JB-SWY3!DP" = Base32.Decode "JBSWY3DP" := by
  constructor
  · intro s s2 h
    rw [Base32.Decode, Base32.Decode, Base32.decodeScan, Base32.decodeScan,
      Base32.foldl_insertsInvalid h]
  · decide

/-- Witness for C6: the insertion relation applied at the spec's example. -/
theorem decode_lenient_c6_witness :
    Base32.Decode "JB-SWY3!DP" = Base32.Decode "JBSWY3DP" := by
  apply decode_lenient_c6.1
  show Base32.InsertsInvalid
    ['J', 'B', 'S', 'W', 'Y', '3', 'D', 'P']
    ['J', 'B', '-', 'S', 'W', 'Y', '3', '!', 'D', 'P']
  exact .keep 'J' (.keep 'B' (.extra '-' (by decide) (.keep 'S' (.keep 'W'
    (.keep 'Y' (.keep '3' (.extra '!' (by decide) (.keep 'D'
      (.keep 'P' .nil)))))))))

/-- Counterexample to C9: on input `"JB"` (two valid characters) the final-byte
branch executes with only 2 leftover bits, so the claimed bound
`leftover ≥ 3` fails (and the source's `size_t` shift amount
`left - 3` underflows). -/
theorem decode_leftover_counterexample_c9 :
    (Base32.decodeScan "JB").1 ≠ 0 ∧ ¬ 3 ≤ (Base32.decodeScan "JB").1 := by
  decide

/-- Decode leftover-bit arithmetic: `5·z mod 8` is at least 3 exactly when
`z mod 8` is neither 2 nor 5. -/
theorem five_mul_mod_eight (z : Nat) (hz : 5 * z % 8 ≠ 0) :
    3 ≤ 5 * z % 8 ↔ z % 8 ≠ 2 ∧ z % 8 ≠ 5 := by
  have hm : 5 * z % 8 = 5 * (z % 8) % 8 := by
    conv_lhs => rw [Nat.mul_mod]
  rw [hm] at hz ⊢
  rcases (show z % 8 = 0 ∨ z % 8 = 1 ∨ z % 8 = 2 ∨ z % 8 = 3 ∨ z % 8 = 4 ∨
      z % 8 = 5 ∨ z % 8 = 6 ∨ z % 8 = 7 by omega) with
    h0 | h0 | h0 | h0 | h0 | h0 | h0 | h0 <;> rw [h0] at hz ⊢ <;>
    revert hz <;> decide

/-- C9 (amended): after the scan the leftover-bit count is
`5 * validCount mod 8`; when the final-byte branch executes, the shift amount
`leftover - 3` is non-negative — i.e. `leftover ≥ 3` — precisely when the
number of valid alphabet characters is not congruent to 2 or 5 modulo 8. -/
theorem decode_leftover_c9_amended (s : String) :
    (Base32.decodeScan s).1 = 5 * Base32.validCount s.toList % 8 ∧
    ((Base32.decodeScan s).1 ≠ 0 →
      (3 ≤ (Base32.decodeScan s).1 ↔
        Base32.validCount s.toList % 8 ≠ 2 ∧
          Base32.validCount s.toList % 8 ≠ 5)) := by
  obtain ⟨h1, _⟩ := Base32.scan_spec s.toList 0 0 [] (by omega)
  rw [Nat.zero_add] at h1
  rw [Base32.decodeScan]
  refine ⟨h1, ?_⟩
  rw [h1]
  intro h0
  exact five_mul_mod_eight _ h0
/-- Witness for C9 (amended) at `"JBS"`: three valid characters leave 7 bits. -/
theorem decode_leftover_c9_witness :
    3 ≤ (Base32.decodeScan "JBS").1 ↔
      (Base32.validCount "JBS".toList % 8 ≠ 2 ∧
        Base32.validCount "JBS".toList % 8 ≠ 5) :=
  (decode_leftover_c9_amended "JBS").2 (by decide)

/-- Counterexample to C10: on input `"J"` the decode loop pre-allocates
`floor(5·1/8) = 0` bytes, yet one byte is emitted by the final-byte branch,
so the write is out of bounds of the claimed buffer size. -/
theorem decode_output_counterexample_c10 :
    ¬ ((Base32.Decode "J").length ≤ 5 * String.length "J" / 8) := by
  decide

/-- C10 (amended): the number of bytes `Base32::Decode` emits is at most
`floor(5n/8) + 1` for an input of length `n` — one more than the
pre-allocated buffer size, the excess being the final-byte branch. -/
theorem decode_output_length_c10_amended (s : String) :
    (Base32.Decode s).length ≤ 5 * s.length / 8 + 1 := by
  obtain ⟨h1, h2⟩ := Base32.scan_spec s.toList 0 0 [] (by omega)
  simp only [Nat.zero_add, List.length_nil] at h1 h2
  have hvc : Base32.validCount s.toList ≤ s.toList.length := by
    rw [Base32.validCount]
    exact List.length_filter_le _ _
  have hsl : s.toList.length = s.length := rfl
  have hdiv : 5 * Base32.validCount s.toList / 8 ≤ 5 * s.length / 8 :=
    Nat.div_le_div_right (by omega)
  rw [Base32.Decode]
  rcases hst : Base32.decodeScan s with ⟨left, buffer, out⟩
  rw [Base32.decodeScan] at hst
  rw [hst] at h1 h2
  simp only [] at h1 h2
  show (if left ≠ 0 then
      out ++ [(buffer <<< 5 % 4294967296) >>> (left - 3) &&& 255] else out).length
    ≤ 5 * s.length / 8 + 1
  split_ifs with hl
  · rw [List.length_append]
    simp only [List.length_cons, List.length_nil]
    omega
  · omega

/-- Witness for C7 at a concrete input: length 16 for a 7-byte input, and a
concrete character of the output is in the alphabet-or-padding set. -/
theorem encode_length_and_alphabet_c7_witness :
    (Base32.Encode [72, 101, 108, 108, 111, 33, 33] 0).length = 16 ∧
    ('=' ∈ Base32.Base32Chars ∨ '=' = '=') := by
  have h := encode_length_and_alphabet_c7 [72, 101, 108, 108, 111, 33, 33] 0
  exact ⟨by simpa using h.1, h.2 '=' (by decide)⟩

/-- Witness for C4: the padding table agrees with RFC 4648 away from
remainder 2. -/
theorem encode_padding_table_c4_witness :
    Base32.padCount 4 = rfc4648PadCount 4 :=
  (encode_padding_table_c4 [] 0).2.2.2.2.2.2.2 4 (by decide)

/-- Counterexample to C5: with no provider configured, `Generate` returns the
empty string, and an empty candidate code compares equal to it, so `Validate`
returns `true` whenever the scanned counter range is nonempty — here
`window = 1`, `now = 90`. -/
theorem validate_unavailable_counterexample_c5 :
    TOTP.Validate none "ABCDEFGH" "" 1 90 = true := by decide

/-- C5 (amended): with no HMAC provider configured, `Generate` returns the
empty string (its "unavailable" marker) for every secret and counter, and
`Validate` returns `false` for every NON-EMPTY candidate code, every secret,
and every window; the empty candidate code is accepted whenever the counter
range is nonempty, because it compares equal to the unavailable marker. -/
theorem generate_validate_unavailable_c5_amended :
    (∀ (secret : String) (t : Nat), TOTP.Generate none secret t = "") ∧
    (∀ (secret code : String) (w now : Nat), code ≠ "" →
      TOTP.Validate none secret code w now = false) := by
  constructor
  · intro secret t
    rfl
  · intro secret code w now hc
    rw [TOTP.Validate]
    rw [List.any_eq_false]
    intro t ht
    show ¬ (TOTP.Generate none secret t == code) = true
    intro hbeq
    exact hc (beq_iff_eq.mp hbeq).symm

/-- Witness for C5 (amended) at a concrete non-empty code. -/
theorem generate_validate_unavailable_c5_witness :
    TOTP.Validate none "AB" "123456" 5 600 = false :=
  generate_validate_unavailable_c5_amended.2 "AB" "123456" 5 600 (by decide)

/-- C8: `Generate` serializes the counter into exactly 8 bytes in big-endian
order (most-significant byte first) and uses that array as the HMAC message
with the Base32-decoded secret as the key: the output depends on the provider
only through `out_size` and the digest it returns for exactly that key and
that message. -/
theorem generate_counter_bytes_c8 :
    (∀ t : Nat, (TOTP.counterBytes t).length = 8 ∧
      TOTP.counterBytes t = [t / 2 ^ 56 % 256, t / 2 ^ 48 % 256,
        t / 2 ^ 40 % 256, t / 2 ^ 32 % 256, t / 2 ^ 24 % 256, t / 2 ^ 16 % 256,
        t / 2 ^ 8 % 256, t % 256]) ∧
    (∀ (h h2 : HashProvider) (secret : String) (t : Nat),
      h.out_size = h2.out_size →
      h.hmac (Base32.Decode secret) (TOTP.counterBytes t)
        = h2.hmac (Base32.Decode secret) (TOTP.counterBytes t) →
      TOTP.Generate (some h) secret t = TOTP.Generate (some h2) secret t) := by
  constructor
  · intro t
    rw [TOTP.counterBytes_eq]
    exact ⟨rfl, rfl⟩
  · intro h h2 secret t hsize hagree
    simp only [TOTP.Generate, hagree, hsize]

/-- Witness for C8: the byte serialization of 258, and two providers that
differ as functions but agree on the relevant key and message produce the
same code. -/
theorem generate_counter_bytes_c8_witness :
    (TOTP.counterBytes 258).length = 8 ∧
    TOTP.Generate (some ⟨20, fun _ m => m ++ List.replicate 12 0⟩) "" 5
      = TOTP.Generate
          (some ⟨20, fun _ m => if m.length = 8
            then m ++ List.replicate 12 0 else []⟩) "" 5 := by
  refine ⟨(generate_counter_bytes_c8.1 258).1, ?_⟩
  exact generate_counter_bytes_c8.2 _ _ "" 5 rfl (by decide)

theorem truncate_fold (d : List Nat) (offset : Nat)
    (hb0 : d.getD offset 0 < 256) (hb1 : d.getD (offset + 1) 0 < 256)
    (hb2 : d.getD (offset + 2) 0 < 256) (hb3 : d.getD (offset + 3) 0 < 256) :
    (List.range 4).foldl
      (fun acc i => ((acc <<< 8) % 4294967296) ||| (d.getD (offset + i) 0 % 256)) 0
      = d.getD offset 0 * 16777216 + d.getD (offset + 1) 0 * 65536
        + d.getD (offset + 2) 0 * 256 + d.getD (offset + 3) 0 := by
  have hr : List.range 4 = [0, 1, 2, 3] := rfl
  rw [hr]
  simp only [List.foldl, Nat.add_zero]
  rw [Nat.zero_shiftLeft, Nat.zero_mod, Nat.zero_or]
  rw [Nat.mod_eq_of_lt hb0, Nat.mod_eq_of_lt hb1, Nat.mod_eq_of_lt hb2,
    Nat.mod_eq_of_lt hb3]
  rw [step_buffer8 _ hb1, step_buffer8 _ hb2, mod_step8, step_buffer8 _ hb3,
    mod_step8]
  omega

/-- Unfolded form of `TOTP::Generate` with a provider present. -/
theorem generate_eq (h : HashProvider) (secret : String) (t : Nat) :
    TOTP.Generate (some h) secret t
      = sixDigitCode ((((List.range 4).foldl
          (fun acc i => ((acc <<< 8) % 4294967296) |||
            ((h.hmac (Base32.Decode secret) (TOTP.counterBytes t)).getD
              (((h.hmac (Base32.Decode secret) (TOTP.counterBytes t)).getD
                (h.out_size - 1) 0 &&& 0xF) + i) 0 % 256)) 0)
          &&& 0x7FFFFFFF) % 1000000) := rfl

theorem sixDigitCode_spec {v : Nat} (hv : v < 1000000) :
    (sixDigitCode v).length = 6 ∧
    ∀ c ∈ (sixDigitCode v).toList, c.isDigit = true := by
  have hL := decRepr_length_le hv
  constructor
  · show (List.replicate (6 - (decRepr v).length) '0' ++ decRepr v).length = 6
    rw [List.length_append, List.length_replicate]
    omega
  · intro c hc
    have hmem : c ∈ List.replicate (6 - (decRepr v).length) '0' ++ decRepr v := hc
    rcases List.mem_append.mp hmem with h1 | h2
    · rw [List.eq_of_mem_replicate h1]
      decide
    · exact decRepr_digits v c h2

/-- C1: with an HMAC provider configured, `Generate` computes the code by
RFC 4226 dynamic truncation — `offset` is the low nibble of the last digest
byte, the 4 digest bytes from `offset` are read big-endian, masked with
`0x7FFFFFFF`, reduced modulo 1,000,000, and rendered as a decimal string
left-padded with `'0'` to exactly 6 characters, so the result is always
exactly 6 decimal digits for a value in `[0, 999999]`. -/
theorem generate_dynamic_truncation_c1 (h : HashProvider) (secret : String)
    (counter : Nat)
    (hlen : (h.hmac (Base32.Decode secret) (TOTP.counterBytes counter)).length
      = h.out_size)
    (hbytes : ∀ b ∈ h.hmac (Base32.Decode secret) (TOTP.counterBytes counter),
      b < 256)
    (hsize : 20 ≤ h.out_size) :
    TOTP.Generate (some h) secret counter
      = sixDigitCode (rfc4226Truncate
          (h.hmac (Base32.Decode secret) (TOTP.counterBytes counter))) ∧
    rfc4226Truncate (h.hmac (Base32.Decode secret) (TOTP.counterBytes counter))
      ≤ 999999 ∧
    (TOTP.Generate (some h) secret counter).length = 6 ∧
    ∀ c ∈ (TOTP.Generate (some h) secret counter).toList, c.isDigit = true := by
  set d := h.hmac (Base32.Decode secret) (TOTP.counterBytes counter) with hd
  set offset := d.getD (h.out_size - 1) 0 &&& 0xF with hoff
  have hoff15 : offset ≤ 15 := by
    rw [hoff]
    exact Nat.and_le_right
  have hby : ∀ i : Nat, i ≤ 3 → d.getD (offset + i) 0 < 256 := by
    intro i hi
    have hin : offset + i < d.length := by
      rw [hlen]
      omega
    rw [List.getD_eq_getElem d 0 hin]
    exact hbytes _ (List.getElem_mem hin)
  have hb0 : d.getD offset 0 < 256 := by
    have := hby 0 (by omega)
    simpa using this
  have hfold := truncate_fold d offset hb0 (hby 1 (by omega)) (hby 2 (by omega))
    (hby 3 (by omega))
  have htrunc : rfc4226Truncate d
      = (d.getD offset 0 * 16777216 + d.getD (offset + 1) 0 * 65536
          + d.getD (offset + 2) 0 * 256 + d.getD (offset + 3) 0)
        % 2147483648 % 1000000 := by
    rw [rfc4226Truncate]
    rw [hlen, ← hoff, and_mask31bit]
  have hgen : TOTP.Generate (some h) secret counter
      = sixDigitCode ((d.getD offset 0 * 16777216 + d.getD (offset + 1) 0 * 65536
          + d.getD (offset + 2) 0 * 256 + d.getD (offset + 3) 0)
        % 2147483648 % 1000000) := by
    rw [generate_eq, ← hd, ← hoff, hfold, and_mask31bit]
  have hlt : rfc4226Truncate d ≤ 999999 := by
    rw [htrunc]
    omega
  have hv6 : (d.getD offset 0 * 16777216 + d.getD (offset + 1) 0 * 65536
      + d.getD (offset + 2) 0 * 256 + d.getD (offset + 3) 0)
      % 2147483648 % 1000000 < 1000000 := by
    omega
  obtain ⟨hl6, hdig⟩ := sixDigitCode_spec hv6
  refine ⟨?_, hlt, ?_, ?_⟩
  · rw [hgen, htrunc]
  · rw [hgen]
    exact hl6
  · rw [hgen]
    exact hdig

/-- Witness for C1: a provider whose digest is 19 zero bytes and a final 7;
the offset is 7, the four bytes read are zero, and the rendered code is
`"000000"` — six digits with full zero padding. -/
theorem generate_dynamic_truncation_c1_witness :
    TOTP.Generate (some ⟨20, fun _ _ => List.replicate 19 0 ++ [7]⟩) "" 0
      = sixDigitCode (rfc4226Truncate
          ((HashProvider.mk 20 (fun _ _ => List.replicate 19 0 ++ [7])).hmac
            (Base32.Decode "") (TOTP.counterBytes 0))) ∧
    rfc4226Truncate
        ((HashProvider.mk 20 (fun _ _ => List.replicate 19 0 ++ [7])).hmac
          (Base32.Decode "") (TOTP.counterBytes 0)) ≤ 999999 ∧
    (TOTP.Generate (some ⟨20, fun _ _ => List.replicate 19 0 ++ [7]⟩) "" 0).length
      = 6 ∧
    ∀ c ∈ (TOTP.Generate
        (some ⟨20, fun _ _ => List.replicate 19 0 ++ [7]⟩) "" 0).toList,
      c.isDigit = true :=
  generate_dynamic_truncation_c1 ⟨20, fun _ _ => List.replicate 19 0 ++ [7]⟩
    "" 0 (by decide) (by decide) (by decide)

/-- C2: `Validate` scans the half-open counter range
`[(now − 30w)/30, (now + 30w)/30)` and returns `true` exactly when `Generate`
matches the candidate on some counter in it; consequently a code generated
for the upper bound `end` is rejected (whenever it collides with no code in
the range), and for `w = 1` codes for `now/30 − 1` and `now/30` are accepted
while codes two steps away are rejected (again absent collisions). -/
theorem validate_window_c2 :
    (∀ (hp : Option HashProvider) (secret code : String) (w now : Nat),
      30 * w ≤ now →
      (TOTP.Validate hp secret code w now = true ↔
        ∃ t, (now - 30 * w) / 30 ≤ t ∧ t < (now + 30 * w) / 30 ∧
          TOTP.Generate hp secret t = code)) ∧
    (∀ (hp : Option HashProvider) (secret : String) (w now : Nat),
      30 * w ≤ now →
      (∀ t, (now - 30 * w) / 30 ≤ t → t < (now + 30 * w) / 30 →
        TOTP.Generate hp secret t
          ≠ TOTP.Generate hp secret ((now + 30 * w) / 30)) →
      TOTP.Validate hp secret
        (TOTP.Generate hp secret ((now + 30 * w) / 30)) w now = false) ∧
    (∀ (hp : Option HashProvider) (secret : String) (now : Nat), 30 ≤ now →
      TOTP.Validate hp secret (TOTP.Generate hp secret (now / 30 - 1)) 1 now
        = true ∧
      TOTP.Validate hp secret (TOTP.Generate hp secret (now / 30)) 1 now
        = true) ∧
    (∀ (hp : Option HashProvider) (secret : String) (now : Nat), 60 ≤ now →
      (TOTP.Generate hp secret (now / 30 - 2)
          ≠ TOTP.Generate hp secret (now / 30 - 1) →
       TOTP.Generate hp secret (now / 30 - 2)
          ≠ TOTP.Generate hp secret (now / 30) →
       TOTP.Validate hp secret (TOTP.Generate hp secret (now / 30 - 2)) 1 now
          = false) ∧
      (TOTP.Generate hp secret (now / 30 + 2)
          ≠ TOTP.Generate hp secret (now / 30 - 1) →
       TOTP.Generate hp secret (now / 30 + 2)
          ≠ TOTP.Generate hp secret (now / 30) →
       TOTP.Validate hp secret (TOTP.Generate hp secret (now / 30 + 2)) 1 now
          = false)) := by
  have hiff : ∀ (hp : Option HashProvider) (secret code : String) (w now : Nat),
      30 * w ≤ now →
      (TOTP.Validate hp secret code w now = true ↔
        ∃ t, (now - 30 * w) / 30 ≤ t ∧ t < (now + 30 * w) / 30 ∧
          TOTP.Generate hp secret t = code) := by
    intro hp secret code w now hw
    have hse : (now - 30 * w) / 30 ≤ (now + 30 * w) / 30 :=
      Nat.div_le_div_right (by omega)
    rw [TOTP.Validate, List.any_eq_true]
    constructor
    · rintro ⟨t, hmem, hbeq⟩
      rw [List.mem_range'_1] at hmem
      exact ⟨t, hmem.1, by omega, beq_iff_eq.mp hbeq⟩
    · rintro ⟨t, h1, h2, heq⟩
      refine ⟨t, ?_, by rw [heq]; exact beq_self_eq_true code⟩
      rw [List.mem_range'_1]
      omega
  refine ⟨hiff, ?_, ?_, ?_⟩
  · intro hp secret w now hw hne
    by_contra hcon
    rw [Bool.not_eq_false] at hcon
    obtain ⟨t, h1, h2, heq⟩ := (hiff hp secret _ w now hw).mp hcon
    exact hne t h1 h2 heq
  · intro hp secret now h30
    constructor
    · exact (hiff hp secret _ 1 now (by omega)).mpr
        ⟨now / 30 - 1, by omega, by omega, rfl⟩
    · exact (hiff hp secret _ 1 now (by omega)).mpr
        ⟨now / 30, by omega, by omega, rfl⟩
  · intro hp secret now h60
    constructor
    · intro hne1 hne2
      by_contra hcon
      rw [Bool.not_eq_false] at hcon
      obtain ⟨t, h1, h2, heq⟩ := (hiff hp secret _ 1 now (by omega)).mp hcon
      rcases (show t = now / 30 - 1 ∨ t = now / 30 by omega) with ht | ht
      · rw [ht] at heq
        exact hne1 heq.symm
      · rw [ht] at heq
        exact hne2 heq.symm
    · intro hne1 hne2
      by_contra hcon
      rw [Bool.not_eq_false] at hcon
      obtain ⟨t, h1, h2, heq⟩ := (hiff hp secret _ 1 now (by omega)).mp hcon
      rcases (show t = now / 30 - 1 ∨ t = now / 30 by omega) with ht | ht
      · rw [ht] at heq
        exact hne1 heq.symm
      · rw [ht] at heq
        exact hne2 heq.symm

/-- Witness for C2 with a concrete provider (digest = reversed counter bytes
padded with zeros), `now = 90`, `window = 1`: the scanned range is `[2, 4)`;
the code for counter 2 is accepted, the codes for the upper bound 4 and for
counters two steps away (1 and 5) are rejected. -/
theorem validate_window_c2_witness :
    (TOTP.Validate (some ⟨20, fun _ m => m.reverse ++ List.replicate 12 0⟩) ""
        "554432" 1 90 = true ↔
      ∃ t, (90 - 30 * 1) / 30 ≤ t ∧ t < (90 + 30 * 1) / 30 ∧
        TOTP.Generate (some ⟨20, fun _ m => m.reverse ++ List.replicate 12 0⟩)
          "" t = "554432") ∧
    TOTP.Validate (some ⟨20, fun _ m => m.reverse ++ List.replicate 12 0⟩) ""
      (TOTP.Generate (some ⟨20, fun _ m => m.reverse ++ List.replicate 12 0⟩)
        "" ((90 + 30 * 1) / 30)) 1 90 = false ∧
    TOTP.Validate (some ⟨20, fun _ m => m.reverse ++ List.replicate 12 0⟩) ""
      (TOTP.Generate (some ⟨20, fun _ m => m.reverse ++ List.replicate 12 0⟩)
        "" (90 / 30 - 1)) 1 90 = true ∧
    TOTP.Validate (some ⟨20, fun _ m => m.reverse ++ List.replicate 12 0⟩) ""
      (TOTP.Generate (some ⟨20, fun _ m => m.reverse ++ List.replicate 12 0⟩)
        "" (90 / 30)) 1 90 = true ∧
    TOTP.Validate (some ⟨20, fun _ m => m.reverse ++ List.replicate 12 0⟩) ""
      (TOTP.Generate (some ⟨20, fun _ m => m.reverse ++ List.replicate 12 0⟩)
        "" (90 / 30 - 2)) 1 90 = false ∧
    TOTP.Validate (some ⟨20, fun _ m => m.reverse ++ List.replicate 12 0⟩) ""
      (TOTP.Generate (some ⟨20, fun _ m => m.reverse ++ List.replicate 12 0⟩)
        "" (90 / 30 + 2)) 1 90 = false := by
  refine ⟨validate_window_c2.1 _ "" "554432" 1 90 (by omega),
    validate_window_c2.2.1 _ "" 1 90 (by omega) ?_,
    (validate_window_c2.2.2.1 _ "" 90 (by omega)).1,
    (validate_window_c2.2.2.1 _ "" 90 (by omega)).2,
    (validate_window_c2.2.2.2 _ "" 90 (by omega)).1 (by decide) (by decide),
    (validate_window_c2.2.2.2 _ "" 90 (by omega)).2 (by decide) (by decide)⟩
  intro t h1 h2
  rcases (show t = 2 ∨ t = 3 by omega) with ht | ht <;> subst ht <;> decide
